import Mathlib

/-!
Verification development for the FinancIAs personal-finance manager.

The repository ships the React/TypeScript frontend in full; the Django
backend (rule matcher, categorization learner, import reconciler, budget
tracker, insight/anomaly engine) is specified in `spec.md` but its source
is not part of the checkout.  Definitions below therefore come in two
flavours:

* frontend functions are translated directly from the TypeScript source
  (`Dashboard.tsx`, the alert-bell component, the budget page);
* backend operations carry a doc comment starting `Modelled from the
  spec:` and follow the spec's words (sections 3, 4.1-4.5).

Amounts are modelled as rationals (`ℚ`), machine floats being out of
scope for the properties considered here; dates are plain records and
months are `(year, month)` pairs.
-/

namespace Finances

/-- Calendar date of a transaction (year, month, day). -/
structure Date where
  year : Nat
  month : Nat
  day : Nat
deriving DecidableEq, Repr

/-- Direction of a transaction: `income` or `expense` (spec section 3). -/
inductive TxDir where
  | income
  | expense
deriving DecidableEq, Repr

/-- Transaction entity (spec section 3): immutable financial event with an
optional category reference and the `category_confirmed` flag that marks a
human-confirmed categorization. -/
structure Transaction where
  id : Nat
  user : Nat
  date : Date
  description : String
  amount : ℚ
  dir : TxDir
  category : Option Nat
  account : Option Nat
  category_confirmed : Bool
deriving DecidableEq, Repr

/-- CategoryRule entity (spec section 3): per-user keyword-to-category
mapping with a provenance marker and an update timestamp. -/
structure CategoryRule where
  id : Nat
  user : Nat
  category : Nat
  keyword : String
  learned : Bool
  updated_at : Nat
deriving DecidableEq, Repr

/-- Budget entity (spec section 3): planned amount per user, category and
month (month as a `(year, month)` pair standing for the first-of-month
date). -/
structure Budget where
  id : Nat
  user : Nat
  category : Nat
  month : Nat × Nat
  amount : ℚ
deriving DecidableEq, Repr

/-- Alert type tag (spec section 3). -/
inductive AlertType where
  | anomaly
  | insight
  | reminder
  | goal
deriving DecidableEq, Repr

/-- Structured `related_data` payload of an alert, represented as the
tagged variant suggested in spec section 9 (category ids for budget
insights and reminders, transaction ids for anomalies, goal ids for goal
progress). -/
inductive RelatedData where
  | categoryRef (categoryId : Nat)
  | transactionRef (transactionId : Nat)
  | goalRef (goalId : Nat)
deriving DecidableEq, Repr

/-- Alert entity (spec section 3) with its read/dismiss lifecycle flags. -/
structure Alert where
  id : Nat
  user : Nat
  type : AlertType
  is_read : Bool
  is_dismissed : Bool
  created_at : Nat
  related : RelatedData
deriving DecidableEq, Repr

/-- Savings/balance target consumed by the engine's `goal` rule family
(spec section 4.5: goal progress "if configured"). -/
structure SavingsGoal where
  id : Nat
  user : Nat
  target : ℚ
deriving DecidableEq, Repr

/-- Raw row handed over by the Importer (spec section 6): date and amount
are `Option`s because rows that fail structural validation (unparseable
date/amount, spec section 4.3) are skipped by the reconciler. -/
structure RawRow where
  date : Option Date
  description : String
  amount : Option ℚ
  account : Option Nat
deriving DecidableEq, Repr

/-- Modelled from the spec (section 4.1): description normalization,
"case-fold, trim", computed on the character list of the string. -/
def normChars (s : String) : List Char :=
  (((s.data.map Char.toLower).dropWhile (fun c => c = ' ')).reverse.dropWhile
      (fun c => c = ' ')).reverse

/-- Contiguous-sublist test on character lists: `containsSeq pat s` holds
iff `pat` occurs as a substring of `s`. -/
def containsSeq (pat : List Char) : List Char → Bool
  | [] => pat.isEmpty
  | c :: t => pat.isPrefixOf (c :: t) || containsSeq pat t

/-- Modelled from the spec (section 4.1): a rule keyword matches when it
occurs as a substring of the normalized description. -/
def kwMatches (kw desc : String) : Bool :=
  containsSeq (normChars kw) (normChars desc)

/-- Modelled from the spec (section 4.1): strict preference between two
matching rules — longer (normalized) keyword wins, equal lengths are
broken by the more recent `updated_at`. -/
def betterThan (r s : CategoryRule) : Bool :=
  decide ((normChars s.keyword).length < (normChars r.keyword).length)
    || (decide ((normChars r.keyword).length = (normChars s.keyword).length)
        && decide (s.updated_at < r.updated_at))

/-- One selection step: keep the better of the current best and the next
rule. -/
def pickStep (best : Option CategoryRule) (r : CategoryRule) :
    Option CategoryRule :=
  match best with
  | none => some r
  | some b => if betterThan r b then some r else some b

/-- Left fold selecting the best rule of a candidate list under
`betterThan`. -/
def pickBest (cands : List CategoryRule) : Option CategoryRule :=
  cands.foldl pickStep none

/-- Modelled from the spec (section 4.1): `match(description, user)`
restricted to the rule returned; evaluates every rule of the user whose
keyword occurs in the normalized description and picks the best one. -/
def matchRule (rules : List CategoryRule) (u : Nat) (desc : String) :
    Option CategoryRule :=
  pickBest (rules.filter (fun r => decide (r.user = u) && kwMatches r.keyword desc))

/-- Modelled from the spec (section 4.1): `match` returning the chosen
category id, or `none` when no rule matches. -/
def matchCategory (rules : List CategoryRule) (u : Nat) (desc : String) :
    Option Nat :=
  (matchRule rules u desc).map (fun r => r.category)

/-- Modelled from the spec (section 4.2): minimum keyword length below
which the learner refuses to create a rule.  The exact threshold is a
configurable parameter the spec leaves open; a representative positive
constant is used. -/
def minKeywordLength : Nat := 3

/-- Modelled from the spec (section 4.2): candidate keyword derived from a
description — "the most distinctive token" is modelled as the longest
token of the normalized description. -/
def deriveKeyword (desc : String) : List Char :=
  ((normChars desc).splitOn ' ').foldl
    (fun best t => if best.length < t.length then t else best) []

/-- Modelled from the spec (section 4.2): `learn(transaction description,
assigned category, user)`.  Creates a rule for the derived keyword, or
updates the existing same-keyword rule of that user (last-write-wins,
bumping `updated_at`); a keyword below the minimum length is a silent
no-op.  Transactions are never touched. -/
def learn (rules : List CategoryRule) (u : Nat) (desc : String) (cat : Nat)
    (now : Nat) (fresh : Nat) : List CategoryRule :=
  let kw := deriveKeyword desc
  if kw.length < minKeywordLength then rules
  else if rules.any (fun r => decide (r.user = u) && decide (normChars r.keyword = kw)) then
    rules.map
      (fun r =>
        if r.user = u ∧ normChars r.keyword = kw then
          { r with category := cat, learned := true, updated_at := now }
        else r)
  else rules ++ [⟨fresh, u, cat, ⟨kw⟩, true, now⟩]

/-- Month key of a date: its `(year, month)` pair. -/
def monthKey (d : Date) : Nat × Nat := (d.year, d.month)

/-- Modelled from the spec (section 4.3): content fingerprint used for
duplicate detection — date, amount, and normalized description. -/
def fingerprint (d : Date) (a : ℚ) (desc : String) : Date × ℚ × List Char :=
  (d, a, normChars desc)

/-- Whether some transaction of user `u` in `txs` carries the given
content fingerprint. -/
def rowDup (txs : List Transaction) (u : Nat) (d : Date) (a : ℚ)
    (desc : String) : Bool :=
  txs.any fun t =>
    decide (t.user = u) && decide (fingerprint t.date t.amount t.description = fingerprint d a desc)

/-- Counters reported by an import run (spec section 4.3): created rows,
rejected duplicates, rows skipped for failing structural validation. -/
structure ImportCounts where
  created : Nat
  duplicates : Nat
  skipped : Nat
deriving DecidableEq, Repr

/-- A structurally valid raw row: parseable date and amount. -/
def validRow (row : RawRow) : Bool :=
  row.date.isSome && row.amount.isSome

/-- Modelled from the spec (section 4.3): processing of one raw row.
Invalid rows are skipped; rows whose fingerprint already occurs for the
user (in prior history or earlier in the same batch) are counted as
duplicates; otherwise a transaction is created with
`category_confirmed = false` and the matcher's category, its direction
derived from the sign of the amount. -/
def reconcileRow (rules : List CategoryRule) (u : Nat)
    (acc : List Transaction × ImportCounts × Nat) (row : RawRow) :
    List Transaction × ImportCounts × Nat :=
  match row.date, row.amount with
  | some d, some a =>
    if rowDup acc.1 u d a row.description then
      (acc.1, { acc.2.1 with duplicates := acc.2.1.duplicates + 1 }, acc.2.2)
    else
      (acc.1 ++ [{ id := acc.2.2, user := u, date := d, description := row.description,
                   amount := a,
                   dir := if a < 0 then TxDir.expense else TxDir.income,
                   category := matchCategory rules u row.description,
                   account := row.account, category_confirmed := false }],
       { acc.2.1 with created := acc.2.1.created + 1 }, acc.2.2 + 1)
  | _, _ => (acc.1, { acc.2.1 with skipped := acc.2.1.skipped + 1 }, acc.2.2)

/-- Shared persistent state of the core (transactions, rules, budgets,
alerts, configured goals, and an id counter for fresh rows). -/
structure CoreState where
  transactions : List Transaction
  rules : List CategoryRule
  budgets : List Budget
  alerts : List Alert
  goals : List SavingsGoal
  nextId : Nat
deriving DecidableEq, Repr

/-- Modelled from the spec (section 4.3): `reconcile(batch, user)` —
left-to-right processing of the batch against the current history,
returning the new state and the import counters.  Existing transactions
are never re-evaluated or modified. -/
def reconcile (s : CoreState) (batch : List RawRow) (u : Nat) :
    CoreState × ImportCounts :=
  let res := batch.foldl (reconcileRow s.rules u) (s.transactions, ⟨0, 0, 0⟩, s.nextId)
  ({ s with transactions := res.1, nextId := res.2.2 }, res.2.1)

/-- An automatic pass over the store: either an import reconciliation of a
batch or a learner invocation triggered by a user category assignment. -/
inductive AutoOp where
  | importBatch (batch : List RawRow) (u : Nat)
  | assignLearn (desc : String) (cat : Nat) (u : Nat) (now : Nat) (fresh : Nat)

/-- Effect of one automatic pass on the core state. -/
def applyOp (s : CoreState) : AutoOp → CoreState
  | AutoOp.importBatch batch u => (reconcile s batch u).1
  | AutoOp.assignLearn desc cat u now fresh =>
      { s with rules := learn s.rules u desc cat now fresh }

/-- Effect of a sequence of automatic passes. -/
def applyOps (s : CoreState) : List AutoOp → CoreState
  | [] => s
  | op :: ops => applyOps (applyOp s op) ops

/-- Modelled from the spec (section 4.4): `spent` for a user, category and
month — sum of absolute values of the user's expense transactions in that
category and month. -/
def spentFor (txs : List Transaction) (u c : Nat) (ym : Nat × Nat) : ℚ :=
  (txs.filter fun t =>
      decide (t.user = u) && decide (t.dir = TxDir.expense)
        && decide (t.category = some c) && decide (monthKey t.date = ym)).foldl
    (fun s t => s + |t.amount|) 0

/-- One entry of the budget comparison (spec section 4.4 and the
`BudgetComparison` interface of `api.ts`); `percentage` is omitted
(`none`) when the budgeted amount is not positive. -/
structure CompEntry where
  category : Nat
  budgeted : ℚ
  spent : ℚ
  difference : ℚ
  percentage : Option ℚ
deriving DecidableEq, Repr

/-- Modelled from the spec (section 4.4): `compare(user, month)` — one
entry per Budget row of the user and month, with `spent`, `difference =
budgeted - spent`, and `percentage = spent / budgeted * 100` when
`budgeted > 0`. -/
def compare (txs : List Transaction) (budgets : List Budget) (u : Nat)
    (ym : Nat × Nat) : List CompEntry :=
  (budgets.filter fun b => decide (b.user = u) && decide (b.month = ym)).map
    fun b =>
      { category := b.category
        budgeted := b.amount
        spent := spentFor txs u b.category ym
        difference := b.amount - spentFor txs u b.category ym
        percentage :=
          if (0 : ℚ) < b.amount then some (spentFor txs u b.category ym / b.amount * 100)
          else none }

/-- Frontend `handleSave` filter (budget page, `part_004` lines 76-81):
only entries of the budget map with amount strictly greater than zero are
sent to the bulk save endpoint. -/
def budgetsToSave (m : List (Nat × ℚ)) : List (Nat × ℚ) :=
  m.filter fun p => decide (0 < p.2)

/-- Fresh Budget rows for the surviving entries, ids drawn from `base`. -/
def mkBudgetRows (u : Nat) (ym : Nat × Nat) : Nat → List (Nat × ℚ) → List Budget
  | _, [] => []
  | base, p :: ps => ⟨base, u, p.1, ym, p.2⟩ :: mkBudgetRows u ym (base + 1) ps

/-- Modelled from the spec (section 4.4): `save(user, month, entries)` —
upsert per category replacing any existing Budget row for that user and
month; amounts of zero or absent are treated as "no budget set" and the
row is deleted rather than stored as zero. -/
def bulk_save (table : List Budget) (u : Nat) (ym : Nat × Nat)
    (entries : List (Nat × ℚ)) (base : Nat) : List Budget :=
  table.filter (fun b => !(decide (b.user = u) && decide (b.month = ym)))
    ++ mkBudgetRows u ym base (entries.filter fun p => decide (0 < p.2))

/-- The budget page's save action end to end: the frontend filter
(`part_004` lines 72-93) composed with the bulk save of the spec. -/
def handleSave (table : List Budget) (u : Nat) (ym : Nat × Nat)
    (m : List (Nat × ℚ)) (base : Nat) : List Budget :=
  bulk_save table u ym (budgetsToSave m) base

/-- Modelled from the spec (section 3): default alert listing — dismissed
alerts are excluded but retained for audit. -/
def defaultListing (alerts : List Alert) (u : Nat) : List Alert :=
  alerts.filter fun a => decide (a.user = u) && !a.is_dismissed

/-- Modelled from the spec (section 3): unread count — the number of
non-dismissed, unread alerts of the user. -/
def unreadCount (alerts : List Alert) (u : Nat) : Nat :=
  alerts.countP fun a => decide (a.user = u) && !a.is_dismissed && !a.is_read

/-- Modelled from the spec (section 3 and the `dismiss` endpoint of
`api.ts`): dismissing an alert sets its `is_dismissed` flag, keeping the
record. -/
def dismissAlert (alerts : List Alert) (i : Nat) : List Alert :=
  alerts.map fun a => if a.id = i then { a with is_dismissed := true } else a

/-- Modelled from the spec (section 4.5): length in days of the current
evaluation period used by the de-duplication check; a configurable
positive parameter, fixed here to a representative constant. -/
def evalPeriodDays : Nat := 30

/-- Whether a creation time lies within the current evaluation period
ending at `now`. -/
def inPeriod (now created : Nat) : Bool :=
  decide (created ≤ now) && decide (now - created < evalPeriodDays)

/-- A detected condition the engine wants to report: an alert type plus
the `related_data` key fields. -/
structure Candidate where
  type : AlertType
  related : RelatedData
deriving DecidableEq, Repr

/-- Modelled from the spec (section 4.5): an existing alert blocks the
insertion of a candidate when it belongs to the user, is not dismissed,
has the same type and the same `related_data` key fields, and was created
within the current evaluation period. -/
def matchesCand (u now : Nat) (c : Candidate) (a : Alert) : Bool :=
  decide (a.user = u) && !a.is_dismissed && decide (a.type = c.type)
    && decide (a.related = c.related) && inPeriod now a.created_at

/-- Fresh alert inserted for a candidate: unread, not dismissed, created
now. -/
def mkAlert (u now fresh : Nat) (c : Candidate) : Alert :=
  { id := fresh, user := u, type := c.type, is_read := false,
    is_dismissed := false, created_at := now, related := c.related }

/-- Sum of a list of rationals. -/
def sumQ (l : List ℚ) : ℚ := l.sum

/-- Absolute amounts of the user's expense transactions in a category. -/
def catAbsAmounts (txs : List Transaction) (u : Nat) (c : Option Nat) :
    List ℚ :=
  (txs.filter fun t =>
      decide (t.user = u) && decide (t.dir = TxDir.expense) && decide (t.category = c)).map
    fun t => |t.amount|

/-- Modelled from the spec (section 4.5, anomaly family): a user expense
whose absolute amount exceeds a statistical threshold relative to the
same-category spending — here more than twice the category mean, the
exact threshold being a configurable parameter the spec leaves open. -/
def anomalyTxIds (txs : List Transaction) (u : Nat) : List Nat :=
  (txs.filter fun t =>
      decide (t.user = u) && decide (t.dir = TxDir.expense)
        && decide (2 * sumQ (catAbsAmounts txs u t.category)
              < |t.amount| * ((catAbsAmounts txs u t.category).length : ℚ))).map
    fun t => t.id

/-- Modelled from the spec (section 4.5, budget insight family):
categories of the user whose `spent` exceeds `budgeted` in the month. -/
def overBudgetCats (txs : List Transaction) (budgets : List Budget)
    (u : Nat) (ym : Nat × Nat) : List Nat :=
  ((budgets.filter fun b => decide (b.user = u) && decide (b.month = ym)).filter
      fun b => decide (b.amount < spentFor txs u b.category ym)).map
    fun b => b.category

/-- Category ids the user has ever used on a transaction. -/
def userCats (txs : List Transaction) (u : Nat) : List Nat :=
  ((txs.filter fun t => decide (t.user = u)).filterMap fun t => t.category).dedup

/-- Whether the user has a transaction in the category during the month. -/
def hasTxInMonth (txs : List Transaction) (u c : Nat) (ym : Nat × Nat) :
    Bool :=
  txs.any fun t =>
    decide (t.user = u) && decide (t.category = some c) && decide (monthKey t.date = ym)

/-- Modelled from the spec (section 4.5, reminder family): categories with
historical activity but no transaction in the current period; the precise
recurring-pattern heuristic is left open by the spec and modelled as "any
historical activity". -/
def reminderCats (txs : List Transaction) (u : Nat) (ym : Nat × Nat) :
    List Nat :=
  (userCats txs u).filter fun c => !hasTxInMonth txs u c ym

/-- Modelled from the spec (section 4.5): the candidate conditions of one
`generate` pass, in a fixed order (anomalies, budget insights, reminders,
goal progress) — deterministic in the transaction/budget/goal state. -/
def candidateAlerts (txs : List Transaction) (budgets : List Budget)
    (goals : List SavingsGoal) (u : Nat) (ym : Nat × Nat) : List Candidate :=
  ((anomalyTxIds txs u).map fun i => ⟨AlertType.anomaly, RelatedData.transactionRef i⟩)
    ++ ((overBudgetCats txs budgets u ym).map
        fun c => ⟨AlertType.insight, RelatedData.categoryRef c⟩)
    ++ ((reminderCats txs u ym).map
        fun c => ⟨AlertType.reminder, RelatedData.categoryRef c⟩)
    ++ ((goals.filter fun g => decide (g.user = u)).map
        fun g => ⟨AlertType.goal, RelatedData.goalRef g.id⟩)

/-- Modelled from the spec (section 4.5): insertion pass with
de-duplication — a candidate already covered by a non-dismissed alert of
the same type and key fields within the evaluation period is left
untouched, the others are inserted unread.  Returns the alert list, the
number of alerts created, and the next fresh id. -/
def generateAux (u now : Nat) :
    List Candidate → List Alert → Nat → List Alert × Nat × Nat
  | [], alerts, fresh => (alerts, 0, fresh)
  | c :: cs, alerts, fresh =>
    if alerts.any (matchesCand u now c) then generateAux u now cs alerts fresh
    else
      let res := generateAux u now cs (alerts ++ [mkAlert u now fresh c]) (fresh + 1)
      (res.1, res.2.1 + 1, res.2.2)

/-- Modelled from the spec (section 4.5): `generate(user)` — a single
on-demand pass producing the newly created alerts count; `now` is the
evaluation instant and `ym` the current month. -/
def generate (s : CoreState) (u now : Nat) (ym : Nat × Nat) :
    CoreState × Nat :=
  let cands := candidateAlerts s.transactions s.budgets s.goals u ym
  let res := generateAux u now cands s.alerts s.nextId
  ({ s with alerts := res.1, nextId := res.2.2 }, res.2.1)

/-- Frontend view of an alert as held by the alert-bell component. -/
structure AlertView where
  id : Nat
  is_read : Bool
deriving DecidableEq, Repr

/-- `handleMarkRead` of the alert bell (`part_000` lines 52-56): marks the
alert read in the local list and replaces the unread count with
`Math.max(0, prev - 1)`. -/
def handleMarkRead (alerts : List AlertView) (count : ℤ) (i : Nat) :
    List AlertView × ℤ :=
  (alerts.map fun a => if a.id = i then { a with is_read := true } else a,
   max 0 (count - 1))

/-- Frontend view of a transaction as consumed by `processCategoryData`
(`Dashboard.tsx`): its type string, optional category name, and amount. -/
structure FTx where
  txType : String
  category_name : Option String
  amount : ℚ
deriving DecidableEq, Repr

/-- The grouping key of `processCategoryData`: `t.category_name ||
'Sin categorizar'` — the fallback also applies to an empty name, as `||`
does in JavaScript. -/
def catName (t : FTx) : String :=
  match t.category_name with
  | none => "Sin categorizar"
  | some s => if s = "" then "Sin categorizar" else s

/-- Adding an absolute amount to an insertion-ordered grouping record
(`grouped[cat] = (grouped[cat] || 0) + Math.abs(...)`). -/
def addToGroup (g : List (String × ℚ)) (name : String) (v : ℚ) :
    List (String × ℚ) :=
  match g with
  | [] => [(name, v)]
  | (n, s) :: rest =>
    if n = name then (n, s + v) :: rest else (n, s) :: addToGroup rest name v

/-- Value stored in a grouping record under a name (0 when absent). -/
def groupValue (g : List (String × ℚ)) (name : String) : ℚ :=
  match g with
  | [] => 0
  | (n, s) :: rest => if n = name then s else groupValue rest name

/-- Stable descending insertion by value, matching the stable JavaScript
`sort((a, b) => b.value - a.value)`. -/
def insertDescBy (p : String × ℚ) : List (String × ℚ) → List (String × ℚ)
  | [] => [p]
  | q :: rest => if q.2 < p.2 then p :: q :: rest else q :: insertDescBy p rest

/-- Stable sort in non-increasing order of value. -/
def sortByValueDesc : List (String × ℚ) → List (String × ℚ)
  | [] => []
  | p :: rest => insertDescBy p (sortByValueDesc rest)

/-- `processCategoryData` (`Dashboard.tsx` lines 353-360): keep expense
transactions, group absolute amounts by category name, sort by value
descending and keep the first 8 groups. -/
def processCategoryData (txs : List FTx) : List (String × ℚ) :=
  (sortByValueDesc
      ((txs.filter fun t => decide (t.txType = "expense")).foldl
        (fun g t => addToGroup g (catName t) |t.amount|) [])).take 8

/-- Reference sum for one group: total absolute amount of the expense
transactions whose grouping key is `name`. -/
def expenseSum (txs : List FTx) (name : String) : ℚ :=
  sumQ (((txs.filter fun t => decide (t.txType = "expense")).filter
      fun t => decide (catName t = name)).map fun t => |t.amount|)

/-! Concrete sample data used to exercise the theorems on closed inputs. -/

/-- A human-confirmed June 2025 expense of user 1 in category 7. -/
def exTxA : Transaction :=
  ⟨1, 1, ⟨2025, 6, 5⟩, "alpha", -100, TxDir.expense, some 7, none, true⟩

/-- An auto-categorized June 2025 expense of user 1 in category 7. -/
def exTxB : Transaction :=
  ⟨2, 1, ⟨2025, 6, 9⟩, "beta", -150, TxDir.expense, some 7, none, false⟩

/-- Two June 2025 expenses totalling 250 in absolute value. -/
def exTxs : List Transaction := [exTxA, exTxB]

/-- A single 200 budget of user 1 for category 7 in June 2025. -/
def exBudgets : List Budget := [⟨1, 1, 7, (2025, 6), 200⟩]

/-- The comparison entry expected for `exTxs` against `exBudgets`. -/
def exEntry : CompEntry := ⟨7, 200, 250, -50, some 125⟩

/-- Learned rule mapping keyword "UBER" to category 100 for user 1. -/
def exRuleUber : CategoryRule := ⟨1, 1, 100, "UBER", true, 10⟩

/-- Learned rule mapping keyword "UBER EATS" to category 200 for user 1. -/
def exRuleUberEats : CategoryRule := ⟨2, 1, 200, "UBER EATS", true, 20⟩

/-- Rule set with overlapping keywords "UBER" and "UBER EATS". -/
def exRules : List CategoryRule := [exRuleUber, exRuleUberEats]

/-- A confirmed transaction of user 1 sitting in the store. -/
def exConfirmed : Transaction :=
  ⟨1, 1, ⟨2025, 5, 1⟩, "GYM", -30, TxDir.expense, some 3, none, true⟩

/-- Store holding just the confirmed transaction. -/
def exState : CoreState := ⟨[exConfirmed], [], [], [], [], 2⟩

/-- An import batch of one valid row followed by a learner invocation. -/
def exOps : List AutoOp :=
  [AutoOp.importBatch [⟨some ⟨2025, 6, 1⟩, "UBER EATS 789", some (-20), none⟩] 1,
   AutoOp.assignLearn "MERCADONA 123" 4 1 50 9]

/-- A raw row failing structural validation (no date, no amount). -/
def exInvalidRow : RawRow := ⟨none, "x", none, none⟩

/-- The empty store. -/
def exEmptyState : CoreState := ⟨[], [], [], [], [], 0⟩

/-- An unread, non-dismissed alert of user 1. -/
def exAlertUnread : Alert :=
  ⟨1, 1, AlertType.insight, false, false, 0, RelatedData.categoryRef 7⟩

/-- The unread alert together with an already-read one, distinct ids. -/
def exAlerts : List Alert :=
  [exAlertUnread,
   ⟨2, 1, AlertType.anomaly, true, false, 0, RelatedData.transactionRef 3⟩]

/-- An existing 50 budget row of user 1 for category 7 in June 2025. -/
def exBudgetRow : Budget := ⟨9, 1, 7, (2025, 6), 50⟩

/-! Theorems. -/

/-- C9: in the alert bell, marking one alert read replaces the displayed
unread count with `max 0 (previous - 1)`, which is never negative. -/
theorem C9_mark_read_count_nonneg (alerts : List AlertView) (count : ℤ)
    (i : Nat) :
    (handleMarkRead alerts count i).2 = max 0 (count - 1) ∧
      0 ≤ (handleMarkRead alerts count i).2 :=
  ⟨rfl, le_max_left 0 (count - 1)⟩

/-- C8: when the derived keyword is empty or shorter than the minimum
length threshold, `learn` creates no rule and modifies no existing rule —
it returns the rule store unchanged (a silent no-op of the total
function, not an error). -/
theorem C8_short_keyword_silent_noop (rules : List CategoryRule) (u : Nat)
    (desc : String) (cat now fresh : Nat)
    (h : deriveKeyword desc = [] ∨
      (deriveKeyword desc).length < minKeywordLength) :
    learn rules u desc cat now fresh = rules := by
  have hlen : (deriveKeyword desc).length < minKeywordLength := by
    rcases h with h | h
    · simp [h, minKeywordLength]
    · exact h
  simp [learn, hlen]

/-- C8 witness: the description "ab" derives a two-character keyword,
below the threshold, and learning from it leaves an empty rule store
empty. -/
theorem C8_short_keyword_silent_noop_witness :
    (deriveKeyword "ab" = [] ∨
        (deriveKeyword "ab").length < minKeywordLength) ∧
      learn [] 1 "ab" 5 10 20 = [] :=
  ⟨Or.inr (by decide),
    C8_short_keyword_silent_noop [] 1 "ab" 5 10 20 (Or.inr (by decide))⟩

/-- C4: every entry of the budget comparison for a category with a Budget
row has `spent` equal to the month's absolute expense total of the
category, `difference = budgeted - spent`, and, when `budgeted > 0`,
`percentage = spent / budgeted * 100`. -/
theorem C4_comparison_entry_fields (txs : List Transaction)
    (budgets : List Budget) (u : Nat) (ym : Nat × Nat) (e : CompEntry)
    (he : e ∈ compare txs budgets u ym) :
    e.spent = spentFor txs u e.category ym ∧
      e.difference = e.budgeted - e.spent ∧
      ((0 : ℚ) < e.budgeted →
        e.percentage = some (e.spent / e.budgeted * 100)) := by
  rcases List.mem_map.1 he with ⟨b, _, rfl⟩
  refine ⟨rfl, rfl, fun h => ?_⟩
  show (if (0 : ℚ) < b.amount then _ else _) = _
  rw [if_pos h]

/-- C4 witness: budgeted 200 against expenses of absolute total 250 in
June 2025 gives the entry with spent 250, difference -50 and percentage
125. -/
theorem C4_comparison_entry_fields_witness :
    exEntry ∈ compare exTxs exBudgets 1 (2025, 6) ∧
      exEntry.spent = spentFor exTxs 1 exEntry.category (2025, 6) ∧
      exEntry.difference = exEntry.budgeted - exEntry.spent ∧
      ((0 : ℚ) < exEntry.budgeted →
        exEntry.percentage = some (exEntry.spent / exEntry.budgeted * 100)) := by
  have hmem : exEntry ∈ compare exTxs exBudgets 1 (2025, 6) := by
    norm_num [compare, spentFor, monthKey, exEntry, exTxs, exBudgets, exTxA,
      exTxB]
  exact ⟨hmem, C4_comparison_entry_fields exTxs exBudgets 1 (2025, 6) exEntry hmem⟩

/-- Membership in the freshly built budget rows determines user, month,
category and a positive source entry. -/
theorem mkBudgetRows_mem (u : Nat) (ym : Nat × Nat)
    (ps : List (Nat × ℚ)) :
    ∀ base b, b ∈ mkBudgetRows u ym base ps →
      ∃ p ∈ ps, b.user = u ∧ b.category = p.1 ∧ b.month = ym ∧
        b.amount = p.2 := by
  induction ps with
  | nil => intro base b hb; cases hb
  | cons p ps ih =>
    intro base b hb
    rcases List.mem_cons.1 hb with hb | hb
    · subst hb
      exact ⟨p, List.mem_cons_self p ps, rfl, rfl, rfl, rfl⟩
    · rcases ih (base + 1) b hb with ⟨q, hq, h⟩
      exact ⟨q, List.mem_cons_of_mem p hq, h⟩

/-- C6: saving the budget page when the map holds amount zero for a
category (or no amount at all) leaves no Budget row for that user,
category and month — any existing row is deleted rather than persisted
with amount zero. -/
theorem C6_zero_budget_row_deleted (table : List Budget) (u : Nat)
    (ym : Nat × Nat) (m : List (Nat × ℚ)) (base : Nat) (c : Nat)
    (hc : ∀ v : ℚ, (c, v) ∈ m → ¬(0 : ℚ) < v) :
    ∀ b ∈ handleSave table u ym m base,
      ¬(b.user = u ∧ b.category = c ∧ b.month = ym) := by
  intro b hb
  unfold handleSave bulk_save at hb
  rcases List.mem_append.1 hb with hb | hb
  · rcases List.mem_filter.1 hb with ⟨-, hcond⟩
    rintro ⟨h1, -, h3⟩
    simp [h1, h3] at hcond
  · rcases mkBudgetRows_mem u ym _ base b hb with ⟨p, hp, -, hcat, -, hamt⟩
    rcases List.mem_filter.1 hp with ⟨hp', hpos⟩
    rcases List.mem_filter.1 hp' with ⟨hpm, -⟩
    rintro ⟨-, h2, -⟩
    have hpeq : p = (c, p.2) := by
      rcases p with ⟨p1, p2⟩
      simp only [Prod.mk.injEq, and_true]
      exact hcat.symm.trans h2
    exact hc p.2 (hpeq ▸ hpm) (by simpa using hpos)

/-- `betterThan` never prefers a rule to itself. -/
theorem betterThan_irrefl (r : CategoryRule) : betterThan r r = false := by
  simp [betterThan]

/-- `betterThan` is asymmetric. -/
theorem betterThan_asymm {r s : CategoryRule} (h : betterThan r s = true) :
    betterThan s r = false := by
  have hns : ¬betterThan s r = true := by
    simp only [betterThan, Bool.or_eq_true, Bool.and_eq_true,
      decide_eq_true_eq] at h ⊢
    omega
  simpa using hns

/-- Folding `pickStep` from a best element over rules it beats keeps it. -/
theorem foldl_pickStep_keeps (r : CategoryRule) :
    ∀ l : List CategoryRule, (∀ s ∈ l, s ≠ r → betterThan r s = true) →
      l.foldl pickStep (some r) = some r := by
  intro l
  induction l with
  | nil => intro _; rfl
  | cons s l ih =>
    intro hl
    have hstep : pickStep (some r) s = some r := by
      by_cases hsr : s = r
      · subst hsr
        simp [pickStep, betterThan_irrefl]
      · simp [pickStep, betterThan_asymm (hl s (List.mem_cons_self s l) hsr)]
    rw [List.foldl_cons, hstep]
    exact ih fun t ht h => hl t (List.mem_cons_of_mem s ht) h

/-- Folding `pickStep` over a list containing a rule that strictly beats
every other element returns that rule, whatever already-beaten
accumulator the fold starts from. -/
theorem foldl_pickStep_best (r : CategoryRule) :
    ∀ (l : List CategoryRule) (acc : Option CategoryRule), r ∈ l →
      (∀ s ∈ l, s ≠ r → betterThan r s = true) →
      (acc = none ∨ ∃ b, acc = some b ∧ b ≠ r ∧ betterThan r b = true) →
      l.foldl pickStep acc = some r := by
  intro l
  induction l with
  | nil => intro acc hr; cases hr
  | cons x l ih =>
    intro acc hr hl hacc
    by_cases hxr : x = r
    · subst hxr
      have hstep : pickStep acc x = some x := by
        rcases hacc with h | ⟨b, rfl, -, hb⟩
        · rw [h]; rfl
        · simp [pickStep, hb]
      rw [List.foldl_cons, hstep]
      exact foldl_pickStep_keeps x l fun t ht h =>
        hl t (List.mem_cons_of_mem x ht) h
    · have hrx : betterThan r x = true :=
        hl x (List.mem_cons_self x l) hxr
      have hr' : r ∈ l := by
        rcases List.mem_cons.1 hr with h | h
        · exact absurd h.symm hxr
        · exact h
      have hacc' : pickStep acc x = none ∨
          ∃ b, pickStep acc x = some b ∧ b ≠ r ∧ betterThan r b = true := by
        rcases hacc with h | ⟨b, rfl, hbr, hb⟩
        · rw [h]; exact Or.inr ⟨x, rfl, hxr, hrx⟩
        · by_cases hxb : betterThan x b = true
          · exact Or.inr ⟨x, by simp [pickStep, hxb], hxr, hrx⟩
          · refine Or.inr ⟨b, ?_, hbr, hb⟩
            simp [pickStep, hxb]
      rw [List.foldl_cons]
      exact ih (pickStep acc x) hr'
        (fun t ht h => hl t (List.mem_cons_of_mem x ht) h) hacc'

/-- C2: when a rule of the user matches the description and strictly
beats every other matching rule of that user — its matched keyword is
longer, or equally long with a more recent `updated_at` — `match` returns
that rule's category. -/
theorem C2_match_longest_then_most_recent (rules : List CategoryRule)
    (u : Nat) (desc : String) (r : CategoryRule) (hr : r ∈ rules)
    (hu : r.user = u) (hm : kwMatches r.keyword desc = true)
    (hbest : ∀ s ∈ rules, s.user = u → kwMatches s.keyword desc = true →
      s ≠ r → betterThan r s = true) :
    matchCategory rules u desc = some r.category := by
  have hrf : r ∈ rules.filter
      (fun s => decide (s.user = u) && kwMatches s.keyword desc) :=
    List.mem_filter.2 ⟨hr, by simp [hu, hm]⟩
  have hbf : ∀ s ∈ rules.filter
      (fun s => decide (s.user = u) && kwMatches s.keyword desc),
      s ≠ r → betterThan r s = true := by
    intro s hs hne
    rcases List.mem_filter.1 hs with ⟨hs1, hs2⟩
    rw [Bool.and_eq_true] at hs2
    exact hbest s hs1 (of_decide_eq_true hs2.1) hs2.2 hne
  have hpick : pickBest (rules.filter
      (fun s => decide (s.user = u) && kwMatches s.keyword desc)) = some r :=
    foldl_pickStep_best r _ none hrf hbf (Or.inl rfl)
  simp [matchCategory, matchRule, hpick]

/-- C2 witness: with rules UBER ↦ 100 and UBER EATS ↦ 200 for user 1, the
description "UBER EATS 789" matches both and the longer keyword wins:
`match` returns category 200. -/
theorem C2_match_longest_then_most_recent_witness :
    exRuleUberEats ∈ exRules ∧ exRuleUberEats.user = 1 ∧
      kwMatches exRuleUberEats.keyword "UBER EATS 789" = true ∧
      (∀ s ∈ exRules, s.user = 1 →
        kwMatches s.keyword "UBER EATS 789" = true →
        s ≠ exRuleUberEats → betterThan exRuleUberEats s = true) ∧
      matchCategory exRules 1 "UBER EATS 789" = some 200 := by
  refine ⟨by decide, rfl, by decide, by decide, ?_⟩
  exact C2_match_longest_then_most_recent exRules 1 "UBER EATS 789"
    exRuleUberEats (by decide) rfl (by decide) (by decide)

/-- Dismissing an id that occurs nowhere in the list is the identity. -/
theorem dismissAlert_of_forall_ne (i : Nat) :
    ∀ l : List Alert, (∀ b ∈ l, b.id ≠ i) → dismissAlert l i = l := by
  intro l
  induction l with
  | nil => intro _; rfl
  | cons x l ih =>
    intro h
    have hx : ¬x.id = i := h x (List.mem_cons_self x l)
    simp only [dismissAlert, List.map_cons, if_neg hx]
    rw [show List.map
        (fun a => if a.id = i then { a with is_dismissed := true } else a) l =
        dismissAlert l i from rfl,
      ih fun b hb => h b (List.mem_cons_of_mem x hb)]

/-- Counting effect of a dismissal on the unread predicate: with unique
ids, dismissing a non-dismissed alert lowers the count by one exactly
when that alert was unread. -/
theorem countP_dismiss (a : Alert) (hadm : a.is_dismissed = false) :
    ∀ l : List Alert, (l.map fun x => x.id).Nodup → a ∈ l →
      l.countP
          (fun x => decide (x.user = a.user) && !x.is_dismissed && !x.is_read) =
        (dismissAlert l a.id).countP
            (fun x => decide (x.user = a.user) && !x.is_dismissed && !x.is_read) +
          (if a.is_read then 0 else 1) := by
  intro l
  induction l with
  | nil => intro _ h; cases h
  | cons x l ih =>
    intro hnd hmem
    rw [List.map_cons, List.nodup_cons] at hnd
    by_cases hax : a = x
    · subst hax
      have hrest : ∀ b ∈ l, b.id ≠ a.id := by
        intro b hb hbid
        exact hnd.1 (by rw [← hbid]; exact List.mem_map_of_mem (fun x => x.id) hb)
      have hdl : dismissAlert (a :: l) a.id =
          { a with is_dismissed := true } :: l := by
        simp only [dismissAlert, List.map_cons, if_pos]
        congr 1
        exact dismissAlert_of_forall_ne a.id l hrest
      rw [hdl]
      cases har : a.is_read
      · simp [List.countP_cons, hadm, har]
      · simp [List.countP_cons, hadm, har]
    · have hmem' : a ∈ l := by
        rcases List.mem_cons.1 hmem with h | h
        · exact absurd h hax
        · exact h
      have hxa : ¬x.id = a.id := by
        intro h
        exact hnd.1 (by rw [h]; exact List.mem_map_of_mem (fun x => x.id) hmem')
      have hdl : dismissAlert (x :: l) a.id = x :: dismissAlert l a.id := by
        simp only [dismissAlert, List.map_cons, if_neg hxa]
      rw [hdl, List.countP_cons, List.countP_cons]
      have hl := ih hnd.2 hmem'
      omega

/-- C7: dismissing a non-dismissed alert (with unique alert ids) removes
it from the default listing, lowers the unread count by exactly 1 when it
was unread and by 0 when it was already read, and keeps the record. -/
theorem C7_dismiss_listing_count_retention (alerts : List Alert) (a : Alert)
    (hnd : (alerts.map fun x => x.id).Nodup) (ha : a ∈ alerts)
    (hadm : a.is_dismissed = false) :
    (∀ b ∈ defaultListing (dismissAlert alerts a.id) a.user, b.id ≠ a.id) ∧
      unreadCount alerts a.user =
        unreadCount (dismissAlert alerts a.id) a.user +
          (if a.is_read then 0 else 1) ∧
      ∃ b ∈ dismissAlert alerts a.id, b.id = a.id := by
  refine ⟨?_, countP_dismiss a hadm alerts hnd ha, ?_⟩
  · intro b hb hbid
    rcases List.mem_filter.1 hb with ⟨hb1, hb2⟩
    rcases List.mem_map.1 hb1 with ⟨x, _, rfl⟩
    by_cases hxi : x.id = a.id
    · rw [if_pos hxi] at hb2
      simp at hb2
    · rw [if_neg hxi] at hbid
      exact hxi hbid
  · exact ⟨_, List.mem_map_of_mem _ ha, by simp⟩

/-- C7 witness: dismissing the unread alert of id 1 among two alerts of
user 1 empties it from the listing, drops the unread count by one, and
keeps its record. -/
theorem C7_dismiss_listing_count_retention_witness :
    ((exAlerts.map fun x => x.id).Nodup ∧ exAlertUnread ∈ exAlerts ∧
        exAlertUnread.is_dismissed = false) ∧
      (∀ b ∈ defaultListing (dismissAlert exAlerts exAlertUnread.id)
          exAlertUnread.user, b.id ≠ exAlertUnread.id) ∧
      unreadCount exAlerts exAlertUnread.user =
        unreadCount (dismissAlert exAlerts exAlertUnread.id)
            exAlertUnread.user +
          (if exAlertUnread.is_read then 0 else 1) ∧
      ∃ b ∈ dismissAlert exAlerts exAlertUnread.id,
        b.id = exAlertUnread.id := by
  refine ⟨⟨by decide, by decide, rfl⟩, ?_⟩
  exact C7_dismiss_listing_count_retention exAlerts exAlertUnread
    (by decide) (by decide) rfl

/-- C6 witness: with an existing 50 budget row for category 7 and a saved
map holding amount 0 for category 7, no row for user 1, category 7, June
2025 survives the save. -/
theorem C6_zero_budget_row_deleted_witness :
    (∀ v : ℚ, (7, v) ∈ [((7 : Nat), (0 : ℚ))] → ¬(0 : ℚ) < v) ∧
      ∀ b ∈ handleSave [exBudgetRow] 1 (2025, 6) [(7, 0)] 100,
        ¬(b.user = 1 ∧ b.category = 7 ∧ b.month = (2025, 6)) := by
  have hc : ∀ v : ℚ, (7, v) ∈ [((7 : Nat), (0 : ℚ))] → ¬(0 : ℚ) < v := by
    intro v hv
    simp only [List.mem_singleton, Prod.mk.injEq] at hv
    rw [hv.2]
    exact lt_irrefl 0
  exact ⟨hc, C6_zero_budget_row_deleted [exBudgetRow] 1 (2025, 6) [(7, 0)] 100 7 hc⟩

/-- Effect of `addToGroup` on one stored value. -/
theorem groupValue_addToGroup (n : String) (v : ℚ) :
    ∀ (g : List (String × ℚ)) (m : String),
      groupValue (addToGroup g n v) m =
        groupValue g m + (if n = m then v else 0) := by
  intro g
  induction g with
  | nil =>
    intro m
    by_cases h : n = m <;> simp [addToGroup, groupValue, h]
  | cons q rest ih =>
    intro m
    by_cases hq : q.1 = n
    · by_cases hm : q.1 = m
      · have hnm : n = m := hq ▸ hm
        simp [addToGroup, groupValue, hq, hm, hnm]
      · have hnm : ¬n = m := fun h => hm (hq.trans h)
        simp [addToGroup, groupValue, hq, hm, hnm]
    · by_cases hm : q.1 = m
      · have hnm : ¬n = m := fun h => hq (hm.trans h.symm)
        have hmn : ¬m = n := fun h => hnm h.symm
        simp [addToGroup, groupValue, hq, hm, hnm, hmn]
      · simp [addToGroup, groupValue, hq, hm, ih]

/-- With duplicate-free keys, membership in a grouping record determines
the stored value. -/
theorem groupValue_of_mem :
    ∀ g : List (String × ℚ), (g.map Prod.fst).Nodup →
      ∀ p ∈ g, p.2 = groupValue g p.1 := by
  intro g
  induction g with
  | nil => intro _ p hp; cases hp
  | cons q rest ih =>
    intro hnd p hp
    rw [List.map_cons, List.nodup_cons] at hnd
    rcases List.mem_cons.1 hp with rfl | hp'
    · simp [groupValue]
    · have hq1 : ¬q.1 = p.1 := by
        intro h
        exact hnd.1 (by rw [h]; exact List.mem_map_of_mem Prod.fst hp')
      simp only [groupValue, if_neg hq1]
      exact ih hnd.2 p hp'

/-- Keys of a grouping record after `addToGroup`: unchanged when the key
is present, the key appended otherwise. -/
theorem keys_addToGroup (n : String) (v : ℚ) :
    ∀ g : List (String × ℚ),
      (addToGroup g n v).map Prod.fst =
        if n ∈ g.map Prod.fst then g.map Prod.fst
        else g.map Prod.fst ++ [n] := by
  intro g
  induction g with
  | nil => simp [addToGroup]
  | cons q rest ih =>
    rcases q with ⟨q1, q2⟩
    by_cases hq : q1 = n
    · subst hq
      simp [addToGroup]
    · have hnq : ¬n = q1 := fun h => hq h.symm
      by_cases hmem : n ∈ rest.map Prod.fst
      · simp [addToGroup, hq, ih, hmem, hnq]
      · simp [addToGroup, hq, ih, hmem, hnq]

/-- `addToGroup` preserves duplicate-freeness of the keys. -/
theorem keys_nodup_addToGroup (n : String) (v : ℚ)
    (g : List (String × ℚ)) (h : (g.map Prod.fst).Nodup) :
    ((addToGroup g n v).map Prod.fst).Nodup := by
  rw [keys_addToGroup]
  by_cases hmem : n ∈ g.map Prod.fst
  · simpa [hmem] using h
  · simp [hmem, List.nodup_append, h]

/-- Value accumulated by the grouping fold: previous value plus the total
absolute amount of the list's transactions grouped under the key. -/
theorem groupValue_fold (m : String) :
    ∀ (l : List FTx) (g : List (String × ℚ)),
      groupValue (l.foldl (fun g t => addToGroup g (catName t) |t.amount|) g) m =
        groupValue g m +
          sumQ ((l.filter fun t => decide (catName t = m)).map fun t => |t.amount|) := by
  intro l
  induction l with
  | nil => intro g; simp [sumQ]
  | cons t ts ih =>
    intro g
    rw [List.foldl_cons, ih, groupValue_addToGroup]
    by_cases h : catName t = m
    · rw [List.filter_cons, if_pos (decide_eq_true h)]
      simp only [h, if_pos, List.map_cons, sumQ, List.sum_cons]
      ring
    · simp [List.filter_cons, h]

/-- The grouping fold preserves duplicate-freeness of the keys. -/
theorem keys_nodup_fold :
    ∀ (l : List FTx) (g : List (String × ℚ)), (g.map Prod.fst).Nodup →
      ((l.foldl (fun g t => addToGroup g (catName t) |t.amount|) g).map
          Prod.fst).Nodup := by
  intro l
  induction l with
  | nil => intro g h; simpa using h
  | cons t ts ih =>
    intro g h
    rw [List.foldl_cons]
    exact ih _ (keys_nodup_addToGroup _ _ _ h)

/-- Every key of the grouping fold's result is an initial key or the
grouping key of some processed transaction. -/
theorem keys_fold_origin :
    ∀ (l : List FTx) (g : List (String × ℚ)) (p : String × ℚ),
      p ∈ l.foldl (fun g t => addToGroup g (catName t) |t.amount|) g →
      p.1 ∈ g.map Prod.fst ∨ ∃ t ∈ l, catName t = p.1 := by
  intro l
  induction l with
  | nil => intro g p hp; exact Or.inl (List.mem_map_of_mem Prod.fst hp)
  | cons t ts ih =>
    intro g p hp
    rw [List.foldl_cons] at hp
    rcases ih _ p hp with h | ⟨t', ht', h⟩
    · rw [keys_addToGroup] at h
      by_cases hmem : catName t ∈ g.map Prod.fst
      · rw [if_pos hmem] at h
        exact Or.inl h
      · rw [if_neg hmem] at h
        rcases List.mem_append.1 h with h | h
        · exact Or.inl h
        · exact Or.inr ⟨t, List.mem_cons_self t ts,
            (List.mem_singleton.1 h).symm⟩
    · exact Or.inr ⟨t', List.mem_cons_of_mem t ht', h⟩

/-- Descending insertion permutes the inserted element onto the list. -/
theorem insertDescBy_perm (p : String × ℚ) :
    ∀ l : List (String × ℚ), (insertDescBy p l).Perm (p :: l) := by
  intro l
  induction l with
  | nil => simp [insertDescBy]
  | cons q rest ih =>
    by_cases h : q.2 < p.2
    · simp [insertDescBy, h]
    · rw [insertDescBy, if_neg h]
      exact (ih.cons q).trans (List.Perm.swap p q rest)

/-- The descending sort is a permutation of its input. -/
theorem sortByValueDesc_perm :
    ∀ l : List (String × ℚ), (sortByValueDesc l).Perm l := by
  intro l
  induction l with
  | nil => simp [sortByValueDesc]
  | cons p rest ih =>
    exact (insertDescBy_perm p (sortByValueDesc rest)).trans (ih.cons p)

/-- Descending insertion preserves non-increasing sortedness by value. -/
theorem sorted_insertDescBy (p : String × ℚ) :
    ∀ l : List (String × ℚ),
      List.Sorted (fun a b : String × ℚ => b.2 ≤ a.2) l →
      List.Sorted (fun a b : String × ℚ => b.2 ≤ a.2) (insertDescBy p l) := by
  intro l
  induction l with
  | nil => intro _; simp [insertDescBy]
  | cons q rest ih =>
    intro hs
    rw [List.sorted_cons] at hs
    by_cases h : q.2 < p.2
    · rw [insertDescBy, if_pos h, List.sorted_cons]
      refine ⟨?_, List.sorted_cons.2 hs⟩
      intro b hb
      rcases List.mem_cons.1 hb with rfl | hb'
      · exact le_of_lt h
      · exact le_trans (hs.1 b hb') (le_of_lt h)
    · rw [insertDescBy, if_neg h, List.sorted_cons]
      refine ⟨?_, ih hs.2⟩
      intro b hb
      have hb' : b ∈ p :: rest := (insertDescBy_perm p rest).mem_iff.1 hb
      rcases List.mem_cons.1 hb' with rfl | hb''
      · exact le_of_not_lt h
      · exact hs.1 b hb''

/-- The descending sort produces a non-increasing list by value. -/
theorem sorted_sortByValueDesc :
    ∀ l : List (String × ℚ),
      List.Sorted (fun a b : String × ℚ => b.2 ≤ a.2) (sortByValueDesc l) := by
  intro l
  induction l with
  | nil => simp [sortByValueDesc]
  | cons p rest ih => exact sorted_insertDescBy p (sortByValueDesc rest) ih

/-- C10: `processCategoryData` keeps only expense transactions, groups
absolute amounts by category name (with the "Sin categorizar" fallback),
returns the groups in non-increasing order of summed value, and truncates
to at most 8 entries. -/
theorem C10_processCategoryData_spec (txs : List FTx) :
    (processCategoryData txs).length ≤ 8 ∧
      List.Sorted (fun a b : String × ℚ => b.2 ≤ a.2)
        (processCategoryData txs) ∧
      ∀ p ∈ processCategoryData txs,
        p.2 = expenseSum txs p.1 ∧
          ∃ t ∈ txs, t.txType = "expense" ∧ catName t = p.1 := by
  refine ⟨?_, ?_, ?_⟩
  · simp [processCategoryData, List.length_take]
  · exact List.Pairwise.sublist (List.take_sublist _ _)
      (sorted_sortByValueDesc _)
  · intro p hp
    simp only [processCategoryData] at hp
    have hp1 := List.take_subset _ _ hp
    have hp2 := (sortByValueDesc_perm _).mem_iff.1 hp1
    constructor
    · rw [groupValue_of_mem _
        (keys_nodup_fold _ [] (by simp)) p hp2, groupValue_fold]
      simp [groupValue, expenseSum]
    · rcases keys_fold_origin _ [] p hp2 with h | ⟨t, ht, hcat⟩
      · simp at h
      · rcases List.mem_filter.1 ht with ⟨htx, hexp⟩
        exact ⟨t, htx, of_decide_eq_true hexp, hcat⟩

/-- One reconciliation step never removes or changes a transaction
already in the accumulator. -/
theorem reconcileRow_mem (rules : List CategoryRule) (u : Nat)
    (acc : List Transaction × ImportCounts × Nat) (row : RawRow)
    (t : Transaction) (ht : t ∈ acc.1) :
    t ∈ (reconcileRow rules u acc row).1 := by
  unfold reconcileRow
  cases hd : row.date with
  | none => exact ht
  | some d =>
    cases ha : row.amount with
    | none => exact ht
    | some a =>
      by_cases hdup : rowDup acc.1 u d a row.description = true
      · simp only [hdup, if_true]
        exact ht
      · simp only [hdup, if_false]
        exact List.mem_append_left _ ht

/-- A whole reconciliation fold preserves existing transactions. -/
theorem foldl_reconcileRow_mem (rules : List CategoryRule) (u : Nat)
    (t : Transaction) :
    ∀ (batch : List RawRow) (acc : List Transaction × ImportCounts × Nat),
      t ∈ acc.1 → t ∈ (batch.foldl (reconcileRow rules u) acc).1 := by
  intro batch
  induction batch with
  | nil => intro acc ht; exact ht
  | cons row rows ih =>
    intro acc ht
    rw [List.foldl_cons]
    exact ih _ (reconcileRow_mem rules u acc row t ht)

/-- `reconcile` preserves existing transactions. -/
theorem reconcile_mem (s : CoreState) (batch : List RawRow) (u : Nat)
    (t : Transaction) (ht : t ∈ s.transactions) :
    t ∈ (reconcile s batch u).1.transactions :=
  foldl_reconcileRow_mem s.rules u t batch _ ht

/-- Any single automatic pass preserves existing transactions. -/
theorem applyOp_mem (s : CoreState) (op : AutoOp) (t : Transaction)
    (ht : t ∈ s.transactions) : t ∈ (applyOp s op).transactions := by
  cases op with
  | importBatch batch u => exact reconcile_mem s batch u t ht
  | assignLearn desc cat u now fresh => exact ht

/-- C1: a transaction with `category_confirmed = true` is still present,
with the very same record — hence the same category and amount — after any
sequence of Import Reconciler and Categorization Learner passes (the
passes only append new transactions or touch the rule store). -/
theorem C1_confirmed_transactions_untouched (s : CoreState)
    (ops : List AutoOp) (t : Transaction) (ht : t ∈ s.transactions)
    (hconf : t.category_confirmed = true) :
    t ∈ (applyOps s ops).transactions := by
  induction ops generalizing s with
  | nil => exact ht
  | cons op ops ih => exact ih (applyOp s op) (applyOp_mem s op t ht)

/-- C1 witness: the confirmed GYM transaction survives an import of a
batch and a learner invocation unchanged. -/
theorem C1_confirmed_transactions_untouched_witness :
    (exConfirmed ∈ exState.transactions ∧
        exConfirmed.category_confirmed = true) ∧
      exConfirmed ∈ (applyOps exState exOps).transactions := by
  refine ⟨⟨by decide, rfl⟩, ?_⟩
  exact C1_confirmed_transactions_untouched exState exOps exConfirmed
    (by decide) rfl

/-- A fingerprint hit survives growing the transaction list. -/
theorem rowDup_mono {txs txs' : List Transaction} (u : Nat) (d : Date)
    (a : ℚ) (desc : String) (hsub : ∀ t ∈ txs, t ∈ txs')
    (h : rowDup txs u d a desc = true) : rowDup txs' u d a desc = true := by
  rw [rowDup, List.any_eq_true] at h ⊢
  rcases h with ⟨t, ht, hp⟩
  exact ⟨t, hsub t ht, hp⟩

/-- After reconciling a batch, every structurally valid row of the batch
has its content fingerprint present in the resulting history. -/
theorem foldl_reconcileRow_covers (rules : List CategoryRule) (u : Nat) :
    ∀ (batch : List RawRow) (acc : List Transaction × ImportCounts × Nat),
      ∀ row ∈ batch, ∀ d a, row.date = some d → row.amount = some a →
        rowDup (batch.foldl (reconcileRow rules u) acc).1 u d a
          row.description = true := by
  intro batch
  induction batch with
  | nil => intro acc row hrow; cases hrow
  | cons r rows ih =>
    intro acc row hrow d a hd ha
    rw [List.foldl_cons]
    rcases List.mem_cons.1 hrow with rfl | hrow'
    · have hcov : rowDup (reconcileRow rules u acc row).1 u d a
          row.description = true := by
        unfold reconcileRow
        simp only [hd, ha]
        by_cases hdup : rowDup acc.1 u d a row.description = true
        · simp only [hdup, if_true]
        · simp only [hdup, if_false]
          rw [rowDup, List.any_eq_true]
          refine ⟨_, List.mem_append_right _ (List.mem_singleton_self _), ?_⟩
          simp
      exact rowDup_mono u d a row.description
        (fun t ht => foldl_reconcileRow_mem rules u t rows _ ht) hcov
    · exact ih (reconcileRow rules u acc r) row hrow' d a hd ha

/-- A reconciliation run over a batch whose valid rows are all already
fingerprinted creates nothing: the history is unchanged, every valid row
is reported as a duplicate and every invalid row as skipped. -/
theorem foldl_reconcileRow_all_dup (rules : List CategoryRule) (u : Nat) :
    ∀ (batch : List RawRow) (txs : List Transaction) (c : ImportCounts)
      (n : Nat),
      (∀ row ∈ batch, ∀ d a, row.date = some d → row.amount = some a →
        rowDup txs u d a row.description = true) →
      batch.foldl (reconcileRow rules u) (txs, c, n) =
        (txs,
         ⟨c.created, c.duplicates + batch.countP validRow,
          c.skipped + batch.countP fun r => !validRow r⟩,
         n) := by
  intro batch
  induction batch with
  | nil => intro txs c n _; simp
  | cons r rows ih =>
    intro txs c n h
    rw [List.foldl_cons]
    cases hd : r.date with
    | none =>
      have hstep : reconcileRow rules u (txs, c, n) r =
          (txs, { c with skipped := c.skipped + 1 }, n) := by
        unfold reconcileRow
        simp only [hd]
      rw [hstep, ih txs _ n
        (fun row hrow => h row (List.mem_cons_of_mem r hrow))]
      have hcnt1 : (r :: rows).countP validRow = rows.countP validRow := by
        simp [List.countP_cons, validRow, hd]
      have hcnt2 : (r :: rows).countP (fun r => !validRow r) =
          rows.countP (fun r => !validRow r) + 1 := by
        simp [List.countP_cons, validRow, hd]
      rw [hcnt1, hcnt2,
        show c.skipped + 1 + rows.countP (fun r => !validRow r) =
          c.skipped + (rows.countP (fun r => !validRow r) + 1) by omega]
    | some d =>
      cases ha : r.amount with
      | none =>
        have hstep : reconcileRow rules u (txs, c, n) r =
            (txs, { c with skipped := c.skipped + 1 }, n) := by
          unfold reconcileRow
          simp only [hd, ha]
        rw [hstep, ih txs _ n
          (fun row hrow => h row (List.mem_cons_of_mem r hrow))]
        have hcnt1 : (r :: rows).countP validRow = rows.countP validRow := by
          simp [List.countP_cons, validRow, hd, ha]
        have hcnt2 : (r :: rows).countP (fun r => !validRow r) =
            rows.countP (fun r => !validRow r) + 1 := by
          simp [List.countP_cons, validRow, hd, ha]
        rw [hcnt1, hcnt2,
          show c.skipped + 1 + rows.countP (fun r => !validRow r) =
            c.skipped + (rows.countP (fun r => !validRow r) + 1) by omega]
      | some a =>
        have hdup : rowDup txs u d a r.description = true :=
          h r (List.mem_cons_self r rows) d a hd ha
        have hstep : reconcileRow rules u (txs, c, n) r =
            (txs, { c with duplicates := c.duplicates + 1 }, n) := by
          unfold reconcileRow
          simp only [hd, ha, hdup, if_true]
        rw [hstep, ih txs _ n
          (fun row hrow => h row (List.mem_cons_of_mem r hrow))]
        have hcnt1 : (r :: rows).countP validRow =
            rows.countP validRow + 1 := by
          simp [List.countP_cons, validRow, hd, ha]
        have hcnt2 : (r :: rows).countP (fun r => !validRow r) =
            rows.countP (fun r => !validRow r) := by
          simp [List.countP_cons, validRow, hd, ha]
        rw [hcnt1, hcnt2,
          show c.duplicates + 1 + rows.countP validRow =
            c.duplicates + (rows.countP validRow + 1) by omega]

/-- C3 counterexample: for a batch holding one structurally invalid row,
the second run of `reconcile` does not report every row of the batch as a
duplicate — the invalid row is counted as skipped instead. -/
theorem C3_reimport_counterexample :
    ¬(reconcile (reconcile exEmptyState [exInvalidRow] 1).1
          [exInvalidRow] 1).2.duplicates = [exInvalidRow].length := by
  decide

/-- C3 amended: re-importing an identical batch creates zero new
transactions, reports every structurally valid row of the batch as a
duplicate, and skips the invalid rows again. -/
theorem C3_reimport_idempotent (s : CoreState) (batch : List RawRow)
    (u : Nat) :
    (reconcile (reconcile s batch u).1 batch u).2.created = 0 ∧
      (reconcile (reconcile s batch u).1 batch u).2.duplicates =
        batch.countP validRow ∧
      (reconcile (reconcile s batch u).1 batch u).2.skipped =
        batch.countP (fun r => !validRow r) := by
  have hcov : ∀ row ∈ batch, ∀ d a, row.date = some d →
      row.amount = some a →
      rowDup (reconcile s batch u).1.transactions u d a
        row.description = true := by
    intro row hrow d a hd ha
    exact foldl_reconcileRow_covers s.rules u batch
      (s.transactions, ⟨0, 0, 0⟩, s.nextId) row hrow d a hd ha
  have hrun := foldl_reconcileRow_all_dup (reconcile s batch u).1.rules u
    batch (reconcile s batch u).1.transactions ⟨0, 0, 0⟩
    (reconcile s batch u).1.nextId hcov
  refine ⟨?_, ?_, ?_⟩
  · show (batch.foldl (reconcileRow (reconcile s batch u).1.rules u)
        ((reconcile s batch u).1.transactions, ⟨0, 0, 0⟩,
          (reconcile s batch u).1.nextId)).2.1.created = 0
    rw [hrun]
  · show (batch.foldl (reconcileRow (reconcile s batch u).1.rules u)
        ((reconcile s batch u).1.transactions, ⟨0, 0, 0⟩,
          (reconcile s batch u).1.nextId)).2.1.duplicates =
      batch.countP validRow
    rw [hrun]
    exact Nat.zero_add _
  · show (batch.foldl (reconcileRow (reconcile s batch u).1.rules u)
        ((reconcile s batch u).1.transactions, ⟨0, 0, 0⟩,
          (reconcile s batch u).1.nextId)).2.1.skipped =
      batch.countP (fun r => !validRow r)
    rw [hrun]
    exact Nat.zero_add _

/-- The insertion pass never removes an alert. -/
theorem generateAux_mem (u now : Nat) :
    ∀ (cs : List Candidate) (alerts : List Alert) (fresh : Nat) (a : Alert),
      a ∈ alerts → a ∈ (generateAux u now cs alerts fresh).1 := by
  intro cs
  induction cs with
  | nil => intro alerts fresh a ha; exact ha
  | cons c cs ih =>
    intro alerts fresh a ha
    unfold generateAux
    by_cases h : alerts.any (matchesCand u now c) = true
    · rw [if_pos h]
      exact ih alerts fresh a ha
    · rw [if_neg h]
      show a ∈ (generateAux u now cs (alerts ++ [mkAlert u now fresh c])
        (fresh + 1)).1
      exact ih _ _ a (List.mem_append_left _ ha)

/-- After an insertion pass, every processed candidate is covered by some
matching non-dismissed in-period alert of the resulting list. -/
theorem generateAux_covers (u now : Nat) :
    ∀ (cs : List Candidate) (alerts : List Alert) (fresh : Nat)
      (c : Candidate), c ∈ cs →
      ∃ a ∈ (generateAux u now cs alerts fresh).1,
        matchesCand u now c a = true := by
  intro cs
  induction cs with
  | nil => intro alerts fresh c hc; cases hc
  | cons c' cs ih =>
    intro alerts fresh c hc
    unfold generateAux
    by_cases h : alerts.any (matchesCand u now c') = true
    · rw [if_pos h]
      rcases List.mem_cons.1 hc with rfl | hc'
      · rw [List.any_eq_true] at h
        rcases h with ⟨a, ha, hm⟩
        exact ⟨a, generateAux_mem u now cs alerts fresh a ha, hm⟩
      · exact ih alerts fresh c hc'
    · rw [if_neg h]
      rcases List.mem_cons.1 hc with rfl | hc'
      · refine ⟨mkAlert u now fresh c, ?_, ?_⟩
        · show _ ∈ (generateAux u now cs
            (alerts ++ [mkAlert u now fresh c]) (fresh + 1)).1
          exact generateAux_mem u now cs _ _ _
            (List.mem_append_right _ (List.mem_singleton_self _))
        · simp [matchesCand, mkAlert, inPeriod, evalPeriodDays]
      · show ∃ a ∈ (generateAux u now cs
            (alerts ++ [mkAlert u now fresh c']) (fresh + 1)).1,
          matchesCand u now c a = true
        exact ih _ _ c hc'

/-- An insertion pass on candidates that are all already covered inserts
nothing. -/
theorem generateAux_all_covered (u now : Nat) :
    ∀ (cs : List Candidate) (alerts : List Alert) (fresh : Nat),
      (∀ c ∈ cs, alerts.any (matchesCand u now c) = true) →
      generateAux u now cs alerts fresh = (alerts, 0, fresh) := by
  intro cs
  induction cs with
  | nil => intro alerts fresh _; rfl
  | cons c cs ih =>
    intro alerts fresh h
    unfold generateAux
    rw [if_pos (h c (List.mem_cons_self c cs))]
    exact ih alerts fresh fun c' hc' => h c' (List.mem_cons_of_mem c hc')

/-- C5: running `generate` twice in succession, with no intervening
change to transactions, budgets or goals, creates zero additional alerts
on the second run and leaves the alert list of the first run untouched —
every candidate condition is already covered by the non-dismissed alert
created (or found) within the current evaluation period by the first
run. -/
theorem C5_generate_twice_idempotent (s : CoreState) (u now : Nat)
    (ym : Nat × Nat) :
    (generate (generate s u now ym).1 u now ym).2 = 0 ∧
      (generate (generate s u now ym).1 u now ym).1.alerts =
        (generate s u now ym).1.alerts := by
  have hcov : ∀ c ∈ candidateAlerts s.transactions s.budgets s.goals u ym,
      ((generateAux u now
          (candidateAlerts s.transactions s.budgets s.goals u ym)
          s.alerts s.nextId).1).any (matchesCand u now c) = true := by
    intro c hc
    rw [List.any_eq_true]
    exact generateAux_covers u now _ s.alerts s.nextId c hc
  have hrun := generateAux_all_covered u now
    (candidateAlerts s.transactions s.budgets s.goals u ym)
    ((generateAux u now
        (candidateAlerts s.transactions s.budgets s.goals u ym)
        s.alerts s.nextId).1)
    ((generateAux u now
        (candidateAlerts s.transactions s.budgets s.goals u ym)
        s.alerts s.nextId).2.2) hcov
  constructor
  · show (generateAux u now
        (candidateAlerts s.transactions s.budgets s.goals u ym)
        ((generateAux u now
            (candidateAlerts s.transactions s.budgets s.goals u ym)
            s.alerts s.nextId).1)
        ((generateAux u now
            (candidateAlerts s.transactions s.budgets s.goals u ym)
            s.alerts s.nextId).2.2)).2.1 = 0
    rw [hrun]
  · show (generateAux u now
        (candidateAlerts s.transactions s.budgets s.goals u ym)
        ((generateAux u now
            (candidateAlerts s.transactions s.budgets s.goals u ym)
            s.alerts s.nextId).1)
        ((generateAux u now
            (candidateAlerts s.transactions s.budgets s.goals u ym)
            s.alerts s.nextId).2.2)).1 =
      (generateAux u now
        (candidateAlerts s.transactions s.budgets s.goals u ym)
        s.alerts s.nextId).1
    rw [hrun]

end Finances
